import Mathlib

/-!
Shallow embedding of the `litt` indexing and search engine
(crates `litt_index` and `litt_search`), together with proofs settling
the frozen claims about its specification.

The embedding models:
  * the index lifecycle state machine (`Index.Writing` / `Index.Reading`)
    from `src/index/src/index.rs`, with the filesystem and the tantivy
    writer queue made explicit in a `World` record that every effectful
    operation threads through;
  * the per-file ingest pipeline (`process_file`, `add_document`,
    `add_pdf_document`, `add_txt_document`, `add_page`, checksum map
    handling) of the same file;
  * the page-word index construction `create_page_index`;
  * the search-side functions from `src/search/src/search.rs`
    (`get_first_term`, `Search::search` grouping, `get_fuzzy_match`,
    `get_fuzzy_preview`) and the `levenshtein` crate distance.

Modelling conventions:
  * Rust `String` page text is modelled as `List Char`; a page body
    together with its Unicode grapheme segmentation is a
    `List (List Char)` (one inner list per grapheme cluster).
  * Rust `HashMap` contents are modelled as association lists in
    insertion order; no theorem below relies on an iteration order of a
    `HashMap` beyond what the corresponding claim itself grants.
  * machine integers are `Nat`; the two places where the Rust code
    truncates (`as u32` on word positions, `as u8` on the minimal fuzzy
    distance) carry an explicit `% 2^32` respectively `% 256`.
  * fallible Rust functions return `Except LittError`; a Rust panic is
    modelled as the `none` case of an outer `Option`.
-/

namespace Litt

/-- Error kinds of `LittIndexError` and `LittSearchError` that the modelled
code constructs. Transparent wrappers (io, serde, tantivy) are collapsed
into `ioErr`. -/
inductive LittError where
  | stateErr (s : String)
  | pdfParseErr (s : String)
  | searchErr (s : String)
  | ioErr
  | stripRootErr
deriving Repr, DecidableEq

/-- Decidable equality for `Except`, needed to evaluate concrete results
of the modelled fallible operations. -/
instance {e a : Type} [DecidableEq e] [DecidableEq a] : DecidableEq (Except e a) := fun x y =>
  match x, y with
  | .ok u, .ok v =>
    if h : u = v then .isTrue (congrArg Except.ok h)
    else .isFalse (fun hh => h (Except.ok.inj hh))
  | .error u, .error v =>
    if h : u = v then .isTrue (congrArg Except.error h)
    else .isFalse (fun hh => h (Except.error.inj hh))
  | .ok _, .error _ => .isFalse (fun hh => Except.noConfusion hh)
  | .error _, .ok _ => .isFalse (fun hh => Except.noConfusion hh)

/-- Checksum value: `(file_length_in_bytes, last_modified_timestamp)`.
`SystemTime` is modelled as a `Nat` tick count; only equality on it is
used by the code. -/
structure FileMeta where
  len : Nat
  mtime : Nat
deriving Repr, DecidableEq

/-- A page body together with its Unicode grapheme segmentation:
one inner list of `Char` per grapheme cluster, as produced by
`body.graphemes(true)`. -/
abbrev Body := List (List Char)

/-- One entry of the recursive documents-root walk (`walkdir::DirEntry`),
together with the oracle for the external `pdftotext` subprocess: for a
PDF source, the extractor invocation for page `k` exits with status 0 and
writes `pages[k-1]` if and only if `k ≤ pages.length`; for a txt or md
source, `pages.headD []` is the file content. The spawn-failure path of
`Command::output` (extractor binary missing) is not modelled: the
environment is assumed to have the extractor installed. -/
structure DirEntry where
  path : String
  name : String
  meta : FileMeta
  pages : List Body
deriving Repr, DecidableEq

/-- Contents of `checksum.json`: `{absolute source path → (length, mtime)}`,
as an association list in insertion order. -/
abbrev ChecksumMap := List (String × FileMeta)

/-- Per-page word index `{word → [(start_grapheme, end_grapheme)]}`
(`PageIndex` in the Rust code), as an association list in insertion
order. -/
abbrev PageIndex := List (List Char × List (Nat × Nat))

/-- A file written under `pages/<uuid>/`: either the raw page text
`<k>.pageinfo` or the serialised page-word index `<k>.pageindex`. -/
inductive PageFile where
  | info (path : String) (content : List Char)
  | pindexFile (path : String) (content : PageIndex)
deriving Repr, DecidableEq

/-- One tantivy page document with its four fields (`title` is the source
path relative to the documents root, `path` the page text file, `page`
the 1-based page number, `body` the page text). -/
structure PageDoc where
  title : String
  path : String
  page : Nat
  body : List Char
deriving Repr, DecidableEq

/-- Explicit state of everything the index engine touches: the walk
result of the documents root (with the extractor oracle), the checksum
map file, the written page files, the committed tantivy documents
(segment contents) and the pending queue of the live tantivy writer.
`nextUuid` models the fresh-UUID allocator `Uuid::new_v4`. -/
structure World where
  files : List DirEntry
  checksumFile : Option ChecksumMap
  pageFiles : List PageFile
  committedDocs : List PageDoc
  pendingDocs : List PageDoc
  nextUuid : Nat
deriving Repr, DecidableEq

/-- The two lifecycle states of `litt_index::index::Index`. The opaque
tantivy handles (index, writer, reader) and the schema are not carried:
the writer queue lives in `World.pendingDocs` and the reader is a pure
view of `World.committedDocs`. -/
inductive Index where
  | Writing (documentsPath : String)
  | Reading (documentsPath : String) (failedDocuments : List String)
deriving Repr, DecidableEq

/-- Lookup in an association-list map (`HashMap::get`). -/
def lookupMap (m : ChecksumMap) (k : String) : Option FileMeta :=
  (m.find? (fun e => e.1 = k)).map (·.2)

/-- Lookup in a page-word index (`HashMap::get` / `contains_key`). -/
def lookupPIndex (p : PageIndex) (w : List Char) : Option (List (Nat × Nat)) :=
  (p.find? (fun e => e.1 = w)).map (·.2)

/-- The Rust `pindex.entry(word).or_default().push(pair)`: append the pair
to the existing entry of `word`, or add a fresh singleton entry. -/
def pindexPush (p : PageIndex) (w : List Char) (pr : Nat × Nat) : PageIndex :=
  match p with
  | [] => [(w, [pr])]
  | e :: rest =>
    if e.1 = w then (e.1, e.2 ++ [pr]) :: rest
    else e :: pindexPush rest w pr

/-- The alphanumeric test applied to one character. The Rust code uses the
Unicode-aware `char::is_alphanumeric`; this model uses the ASCII
`Char.isAlphanum`. Every claim below is insensitive to the exact
alphabet: the theorems quantify over bodies and only the run structure
induced by the predicate matters, and all concrete counterexample inputs
use characters on which the two predicates agree. -/
def charIsAlnum (c : Char) : Bool := c.isAlphanum

/-- `graphemes[j].chars().all(|c| c.is_alphanumeric())`. -/
def allAlnum (g : List Char) : Bool := g.all charIsAlnum

/-- The `u32` modulus for the `as u32` casts on word positions. -/
def u32Mod : Nat := 4294967296

/-- The `usize::MAX` sentinel that initialises `min_dist` in
`get_fuzzy_match`. -/
def usizeMax : Nat := 18446744073709551615

/-- Inner loop of `Index::create_page_index`: starting at `j`, accumulate
grapheme clusters into `buffer` while they are all-alphanumeric; return
`some (buffer, j)` at the first non-alphanumeric cluster (the Rust branch
that pushes into the map and breaks), or `none` when the scan runs off
the end of the input (the Rust loop then exits without recording). -/
def innerLoop (g : List (List Char)) (j : Nat) (buffer : List Char) :
    Option (List Char × Nat) :=
  if h : j < g.length then
    if allAlnum g[j] then innerLoop g (j + 1) (buffer ++ g[j])
    else some (buffer, j)
  else none
termination_by g.length - j

theorem innerLoop_le {g : List (List Char)} {j : Nat} {buf w : List Char}
    {j' : Nat} (h : innerLoop g j buf = some (w, j')) : j ≤ j' ∧ j' < g.length := by
  induction j, buf using innerLoop.induct g with
  | case1 j buf hj halnum ih =>
    rw [innerLoop, dif_pos hj, if_pos halnum] at h
    have := ih h
    omega
  | case2 j buf hj halnum =>
    rw [innerLoop, dif_pos hj, if_neg halnum] at h
    simp only [Option.some.injEq, Prod.mk.injEq] at h
    omega
  | case3 j buf hj =>
    rw [innerLoop, dif_neg hj] at h
    simp at h

/-- Outer loop of `Index::create_page_index` over start positions `i`.
When the inner scan closes a word at terminator `j`, the Rust code pushes
`(i as u32, j as u32)` under the accumulated word, sets `i = j`, breaks,
and the outer `i += 1` resumes at `j + 1`. When the inner scan reaches
the end of input the outer loop merely advances `i` by one, recording
nothing. -/
def outerLoop (g : List (List Char)) (i : Nat) (pindex : PageIndex) : PageIndex :=
  if _h : i < g.length then
    match e : innerLoop g i [] with
    | some (w, j) =>
      outerLoop g (j + 1) (pindexPush pindex w (i % u32Mod, j % u32Mod))
    | none => outerLoop g (i + 1) pindex
  else pindex
termination_by g.length - i
decreasing_by
  · have := innerLoop_le e
    omega
  · omega

/-- `Index::create_page_index` (the Rust function always returns `Ok`, so
the `Result` wrapper is dropped). -/
def createPageIndex (body : Body) : PageIndex := outerLoop body 0 []

/-- The surface word spanned by grapheme clusters `[s, e)` of `g`. -/
def wordOf (g : List (List Char)) (s e : Nat) : List Char :=
  ((g.drop s).take (e - s)).flatten

theorem innerLoop_some {g : List (List Char)} {j : Nat} {buf w : List Char}
    {j' : Nat} (h : innerLoop g j buf = some (w, j')) :
    j ≤ j' ∧ j' < g.length ∧ allAlnum (g.getD j' []) = false ∧
      (∀ k, j ≤ k → k < j' → allAlnum (g.getD k []) = true) ∧
      w = buf ++ ((g.drop j).take (j' - j)).flatten := by
  induction j, buf using innerLoop.induct g with
  | case1 j buf hj halnum ih =>
    rw [innerLoop, dif_pos hj, if_pos halnum] at h
    obtain ⟨h1, h2, h3, h4, h5⟩ := ih h
    refine ⟨by omega, h2, h3, ?_, ?_⟩
    · intro k hk1 hk2
      rcases Nat.eq_or_lt_of_le hk1 with rfl | hlt
      · rw [List.getD_eq_getElem _ _ hj]; exact halnum
      · exact h4 k hlt hk2
    · rw [h5, List.drop_eq_getElem_cons hj]
      have hj1 : j < j' := by omega
      have : j' - j = (j' - (j + 1)) + 1 := by omega
      rw [this, List.take_succ_cons]
      simp
  | case2 j buf hj halnum =>
    rw [innerLoop, dif_pos hj, if_neg halnum] at h
    simp only [Option.some.injEq, Prod.mk.injEq] at h
    obtain ⟨rfl, rfl⟩ := h
    refine ⟨le_rfl, hj, ?_, by omega, by simp⟩
    rw [List.getD_eq_getElem _ _ hj]
    simpa using halnum
  | case3 j buf hj =>
    rw [innerLoop, dif_neg hj] at h
    simp at h

theorem innerLoop_none {g : List (List Char)} {j : Nat} {buf : List Char}
    (h : innerLoop g j buf = none) :
    ∀ k, j ≤ k → k < g.length → allAlnum (g.getD k []) = true := by
  induction j, buf using innerLoop.induct g with
  | case1 j buf hj halnum ih =>
    rw [innerLoop, dif_pos hj, if_pos halnum] at h
    intro k hk1 hk2
    rcases Nat.eq_or_lt_of_le hk1 with rfl | hlt
    · rw [List.getD_eq_getElem _ _ hj]; exact halnum
    · exact ih h k hlt hk2
  | case2 j buf hj halnum =>
    rw [innerLoop, dif_pos hj, if_neg halnum] at h
    simp at h
  | case3 j buf hj =>
    intro k hk1 hk2
    omega

/-- Membership of a position pair under a word key in a page-word index. -/
def pairMem (p : PageIndex) (w : List Char) (pr : Nat × Nat) : Prop :=
  ∃ ps, lookupPIndex p w = some ps ∧ pr ∈ ps

theorem lookupPIndex_cons (e : List Char × List (Nat × Nat)) (rest : PageIndex)
    (w : List Char) :
    lookupPIndex (e :: rest) w = if e.1 = w then some e.2 else lookupPIndex rest w := by
  by_cases h : e.1 = w
  · simp [lookupPIndex, List.find?_cons_of_pos, h]
  · simp [lookupPIndex, List.find?_cons_of_neg, h]

theorem lookupPIndex_push_self (p : PageIndex) (w : List Char) (pr : Nat × Nat) :
    lookupPIndex (pindexPush p w pr) w = some ((lookupPIndex p w).getD [] ++ [pr]) := by
  induction p with
  | nil => simp [pindexPush, lookupPIndex]
  | cons e rest ih =>
    by_cases he : e.1 = w
    · simp [pindexPush, if_pos he, lookupPIndex_cons, he]
    · rw [pindexPush, if_neg he, lookupPIndex_cons, if_neg he, lookupPIndex_cons,
        if_neg he]
      exact ih

theorem lookupPIndex_push_other (p : PageIndex) (w w' : List Char) (pr : Nat × Nat)
    (hne : w' ≠ w) :
    lookupPIndex (pindexPush p w pr) w' = lookupPIndex p w' := by
  induction p with
  | nil =>
    simp only [pindexPush, lookupPIndex_cons]
    rw [if_neg (by simpa using fun h => hne h.symm)]
  | cons e rest ih =>
    by_cases he : e.1 = w
    · have hne' : ¬ e.1 = w' := fun h => hne (h.symm.trans he)
      rw [pindexPush, if_pos he, lookupPIndex_cons, lookupPIndex_cons]
      dsimp only
      rw [if_neg hne', if_neg hne']
    · rw [pindexPush, if_neg he, lookupPIndex_cons, lookupPIndex_cons]
      by_cases he' : e.1 = w'
      · rw [if_pos he', if_pos he']
      · rw [if_neg he', if_neg he']
        exact ih

theorem pairMem_push_of {p : PageIndex} {w' : List Char} {pr' : Nat × Nat}
    (w : List Char) (pr : Nat × Nat) (h : pairMem p w' pr') :
    pairMem (pindexPush p w pr) w' pr' := by
  obtain ⟨ps, hps, hmem⟩ := h
  by_cases he : w' = w
  · subst he
    exact ⟨_, lookupPIndex_push_self p w' pr, by simp [hps, hmem]⟩
  · exact ⟨ps, by rw [lookupPIndex_push_other p w w' pr he]; exact hps, hmem⟩

theorem pairMem_push_self (p : PageIndex) (w : List Char) (pr : Nat × Nat) :
    pairMem (pindexPush p w pr) w pr :=
  ⟨_, lookupPIndex_push_self p w pr, by simp⟩

/-- Unfolding of `outerLoop` when the inner scan closes a word. -/
theorem outerLoop_eq_some {g : List (List Char)} {i : Nat} {w : List Char}
    {j : Nat} (p : PageIndex) (h : i < g.length)
    (he : innerLoop g i [] = some (w, j)) :
    outerLoop g i p = outerLoop g (j + 1) (pindexPush p w (i % u32Mod, j % u32Mod)) := by
  rw [outerLoop, dif_pos h]
  split
  · next w' j' he' =>
    rw [he] at he'
    simp only [Option.some.injEq, Prod.mk.injEq] at he'
    obtain ⟨rfl, rfl⟩ := he'
    rfl
  · next he' => rw [he] at he'; exact absurd he' (by simp)

/-- Unfolding of `outerLoop` when the inner scan runs off the end. -/
theorem outerLoop_eq_none {g : List (List Char)} {i : Nat} (p : PageIndex)
    (h : i < g.length) (he : innerLoop g i [] = none) :
    outerLoop g i p = outerLoop g (i + 1) p := by
  rw [outerLoop, dif_pos h]
  split
  · next w' j' he' => rw [he] at he'; exact absurd he' (by simp)
  · next => rfl

/-- Unfolding of `outerLoop` past the end of the input. -/
theorem outerLoop_eq_end {g : List (List Char)} {i : Nat} (p : PageIndex)
    (h : ¬ i < g.length) : outerLoop g i p = p := by
  rw [outerLoop, dif_neg h]

theorem outerLoop_mono {g : List (List Char)} {w : List Char} {pr : Nat × Nat} :
    ∀ fuel i p, g.length - i ≤ fuel → pairMem p w pr →
      pairMem (outerLoop g i p) w pr := by
  intro fuel
  induction fuel with
  | zero =>
    intro i p hf hm
    rw [outerLoop_eq_end p (by omega)]
    exact hm
  | succ n ih =>
    intro i p hf hm
    by_cases hi : i < g.length
    · rcases he : innerLoop g i [] with _ | ⟨w', j⟩
      · rw [outerLoop_eq_none p hi he]
        exact ih (i + 1) p (by omega) hm
      · rw [outerLoop_eq_some p hi he]
        have hj := (innerLoop_le he).1
        exact ih (j + 1) _ (by have := (innerLoop_le he).2; omega)
          (pairMem_push_of w' _ hm)
    · rw [outerLoop_eq_end p hi]
      exact hm

/-- A recorded pair is sound: it delimits exactly its word in the
grapheme-cluster sequence, the end is exclusive at a non-alphanumeric
boundary, and the stored values are the `u32` casts of the true offsets. -/
def SoundPair (g : List (List Char)) (w : List Char) (pr : Nat × Nat) : Prop :=
  ∃ i j, pr = (i % u32Mod, j % u32Mod) ∧ i ≤ j ∧ j < g.length ∧
    allAlnum (g.getD j []) = false ∧
    (∀ k, i ≤ k → k < j → allAlnum (g.getD k []) = true) ∧
    w = wordOf g i j

/-- All pairs of a page-word index are sound. -/
def SoundIdx (g : List (List Char)) (p : PageIndex) : Prop :=
  ∀ w ps, (w, ps) ∈ p → ∀ pr ∈ ps, SoundPair g w pr

theorem soundIdx_push {g : List (List Char)} {p : PageIndex} {w : List Char}
    {pr : Nat × Nat} (hp : SoundIdx g p) (hpr : SoundPair g w pr) :
    SoundIdx g (pindexPush p w pr) := by
  induction p with
  | nil =>
    intro w' ps' hmem pr' hpr'
    simp only [pindexPush, List.mem_singleton, Prod.mk.injEq] at hmem
    obtain ⟨rfl, rfl⟩ := hmem
    simp only [List.mem_singleton] at hpr'
    subst hpr'
    exact hpr
  | cons e rest ih =>
    intro w' ps' hmem pr' hpr'
    by_cases he : e.1 = w
    · rw [pindexPush, if_pos he] at hmem
      rcases List.mem_cons.mp hmem with hmem | hmem
      · simp only [Prod.mk.injEq] at hmem
        obtain ⟨rfl, rfl⟩ := hmem
        rcases List.mem_append.mp hpr' with hin | hin
        · exact hp e.1 e.2 (by rw [Prod.mk.eta]; exact List.mem_cons_self e rest) pr' hin
        · simp only [List.mem_singleton] at hin
          subst hin
          rw [he]
          exact hpr
      · exact hp _ _ (List.mem_cons_of_mem e hmem) pr' hpr'
    · rw [pindexPush, if_neg he] at hmem
      rcases List.mem_cons.mp hmem with hmem | hmem
      · exact hp w' ps' (by rw [hmem]; exact List.mem_cons_self e rest) pr' hpr'
      · exact ih (fun a b hab => hp a b (List.mem_cons_of_mem e hab)) w' ps' hmem pr' hpr'

theorem outerLoop_sound {g : List (List Char)} :
    ∀ fuel i p, g.length - i ≤ fuel → SoundIdx g p →
      SoundIdx g (outerLoop g i p) := by
  intro fuel
  induction fuel with
  | zero =>
    intro i p hf hp
    rw [outerLoop_eq_end p (by omega)]
    exact hp
  | succ n ih =>
    intro i p hf hp
    by_cases hi : i < g.length
    · rcases he : innerLoop g i [] with _ | ⟨w, j⟩
      · rw [outerLoop_eq_none p hi he]
        exact ih (i + 1) p (by omega) hp
      · rw [outerLoop_eq_some p hi he]
        obtain ⟨h1, h2, h3, h4, h5⟩ := innerLoop_some he
        refine ih (j + 1) _ (by omega) (soundIdx_push hp ?_)
        exact ⟨i, j, rfl, h1, h2, h3, h4, by simpa [wordOf] using h5⟩
    · rw [outerLoop_eq_end p hi]
      exact hp

theorem outerLoop_complete {g : List (List Char)} :
    ∀ fuel i p, g.length - i ≤ fuel →
      ∀ s e, i ≤ s → s < e → e < g.length →
        (∀ k, s ≤ k → k < e → allAlnum (g.getD k []) = true) →
        allAlnum (g.getD e []) = false →
        (s = 0 ∨ allAlnum (g.getD (s - 1) []) = false) →
        pairMem (outerLoop g i p) (wordOf g s e) (s % u32Mod, e % u32Mod) := by
  intro fuel
  induction fuel with
  | zero =>
    intro i p hf s e his hse hel _ _ _
    omega
  | succ n ih =>
    intro i p hf s e his hse hel hrun hterm hmax
    by_cases hi : i < g.length
    · rcases he : innerLoop g i [] with _ | ⟨w, j⟩
      · -- all clusters from i to the end are alphanumeric: no internally
        -- terminated run can start at or after i
        have := innerLoop_none he e (by omega) hel
        rw [this] at hterm
        exact absurd hterm (by simp)
      · rw [outerLoop_eq_some p hi he]
        obtain ⟨hij, hjl, hjterm, hjrun, hw⟩ := innerLoop_some he
        by_cases hsi : s = i
        · -- the closed word is exactly the run (s, e)
          subst hsi
          have hje : j = e := by
            rcases Nat.lt_trichotomy j e with h | h | h
            · have := hrun j (by omega) h
              rw [this] at hjterm
              exact absurd hjterm (by simp)
            · exact h
            · have := hjrun e (by omega) h
              rw [this] at hterm
              exact absurd hterm (by simp)
          subst hje
          have hword : w = wordOf g s j := by simpa [wordOf] using hw
          subst hword
          exact outerLoop_mono (g.length - (j + 1)) (j + 1) _ le_rfl
            (pairMem_push_self p _ _)
        · -- the run starts strictly after the closed word
          have hs1 : s - 1 ≥ i → s - 1 < j → False := by
            intro h1 h2
            have halnum := hjrun (s - 1) h1 h2
            rcases hmax with h0 | hterm'
            · omega
            · rw [halnum] at hterm'; exact absurd hterm' (by simp)
          have hsj : j + 1 ≤ s := by
            by_cases hcs : s - 1 < j
            · exact absurd (hs1 (by omega) hcs) not_false
            · omega
          exact ih (j + 1) _ (by omega) s e hsj hse hel hrun hterm hmax
    · omega

/-- Counterexample to claim C6 as stated: for the page body `abc` (three
alphanumeric grapheme clusters, the word terminated by the end of input)
the page-word index built at ingest is empty, so it has no key for the
maximal alphanumeric surface word `abc`. -/
theorem claim_C6_counterexample :
    createPageIndex [['a'], ['b'], ['c']] = [] ∧
      lookupPIndex (createPageIndex [['a'], ['b'], ['c']]) ['a', 'b', 'c'] = none := by
  have h : createPageIndex [['a'], ['b'], ['c']] = [] := by
    rw [createPageIndex]
    rw [outerLoop_eq_none _ (by norm_num) (by simp [innerLoop, allAlnum, charIsAlnum])]
    rw [outerLoop_eq_none _ (by norm_num) (by simp [innerLoop, allAlnum, charIsAlnum])]
    rw [outerLoop_eq_none _ (by norm_num) (by simp [innerLoop, allAlnum, charIsAlnum])]
    exact outerLoop_eq_end _ (by norm_num)
  exact ⟨h, by rw [h]; rfl⟩

/-- Claim C6, amended: for every page body, the page-word index built at
ingest contains a key for every maximal alphanumeric surface word of the
body that is terminated by a non-alphanumeric grapheme (a word terminated
by the end of input is not recorded), and every recorded `(start, end)`
pair delimits exactly its word in the grapheme-cluster sequence, with the
end exclusive at the non-alphanumeric boundary. -/
theorem claim_C6_amended (g : Body) (hlen : g.length < u32Mod) :
    (∀ s e, s < e → e < g.length →
      (∀ k, s ≤ k → k < e → allAlnum (g.getD k []) = true) →
      allAlnum (g.getD e []) = false →
      (s = 0 ∨ allAlnum (g.getD (s - 1) []) = false) →
      ∃ ps, lookupPIndex (createPageIndex g) (wordOf g s e) = some ps ∧ (s, e) ∈ ps) ∧
    (∀ w ps, (w, ps) ∈ createPageIndex g → ∀ pr ∈ ps,
      pr.1 ≤ pr.2 ∧ pr.2 < g.length ∧
      allAlnum (g.getD pr.2 []) = false ∧
      (∀ k, pr.1 ≤ k → k < pr.2 → allAlnum (g.getD k []) = true) ∧
      wordOf g pr.1 pr.2 = w) := by
  constructor
  · intro s e hse hel hrun hterm hmax
    have := outerLoop_complete (g := g) g.length 0 [] (by omega) s e (by omega)
      hse hel hrun hterm hmax
    rwa [Nat.mod_eq_of_lt (by omega), Nat.mod_eq_of_lt (by omega)] at this
  · intro w ps hmem pr hpr
    have hsound : SoundIdx g (createPageIndex g) := by
      apply outerLoop_sound g.length 0 [] (by omega)
      intro w' ps' h
      simp at h
    obtain ⟨i, j, hpr', hij, hjl, hterm, hrun, hword⟩ := hsound w ps hmem pr hpr
    have hi : i % u32Mod = i := Nat.mod_eq_of_lt (by omega)
    have hj : j % u32Mod = j := Nat.mod_eq_of_lt (by omega)
    rw [hi, hj] at hpr'
    subst hpr'
    exact ⟨hij, hjl, hterm, hrun, hword.symm⟩

/-- Witness for the amended claim C6 at the concrete body `a!`: the word
`a` occupies clusters `[0, 1)` and is terminated by the non-alphanumeric
`!`, and the built index records it. -/
theorem claim_C6_witness :
    ∃ ps, lookupPIndex (createPageIndex [['a'], ['!']]) (wordOf [['a'], ['!']] 0 1) = some ps ∧
      (0, 1) ∈ ps := by
  refine (claim_C6_amended [['a'], ['!']] (by norm_num [u32Mod])).1 0 1 (by norm_num)
    (by norm_num) ?_ (by decide) (Or.inl rfl)
  intro k hk1 hk2
  have : k = 0 := by omega
  subst this
  decide

/-! Index engine: lifecycle operations of `litt_index::index::Index`.
Path strings are compared and sliced through their character lists
(`String.data`), which keeps every operation kernel-computable. -/

/-- `Path::strip_prefix(documents_path)` followed by `?`: the relative
path of a source file under the documents root, or a
`StripPrefixError`. -/
def stripRoot (dp path : String) : Except LittError String :=
  if dp.data.isPrefixOf path.data then .ok (String.mk (path.data.drop dp.data.length))
  else .error .stripRootErr

/-- `File::open(path)` plus `metadata()`: the current directory entry for
an absolute path, resolved against the walk result. -/
def findFile (w : World) (path : String) : Option DirEntry :=
  w.files.find? (fun f => f.path = path)

/-- `Index::checksum_is_equal`: both checksum components must equal the
file metadata read from the filesystem; a missing stored checksum is
`Ok(false)`, a missing file is an io error. -/
def checksumIsEqual (w : World) (path : String) (checksum : Option FileMeta) :
    Except LittError Bool :=
  match checksum with
  | some m =>
    match findFile w path with
    | some f => .ok (decide (m.len = f.meta.len) && decide (m.mtime = f.meta.mtime))
    | none => .error .ioErr
  | none => .ok false

/-- `Index::calculate_checksum`: re-read length and mtime from the
filesystem. -/
def calculateChecksum (w : World) (path : String) :
    Except LittError (String × FileMeta) :=
  match findFile w path with
  | some f => .ok (path, f.meta)
  | none => .error .ioErr

/-- `Index::store_page_index`: write the serialised page-word index next
to the page file (`set_extension("pageindex")`); `basePath` is the page
path without its extension. -/
def storePageIndexW (w : World) (basePath : String) (p : PageIndex) : World :=
  { w with pageFiles := w.pageFiles ++ [.pindexFile (basePath ++ ".pageindex") p] }

/-- `Index::add_page`: build the four-field tantivy document and hand it
to the writer (the pending queue); requires the `Writing` variant. -/
def addPage (idx : Index) (w : World) (fullPath : String) (pageNumber : Nat)
    (pagePath : String) (pageBody : List Char) : World × Except LittError Unit :=
  match idx with
  | .Writing dp =>
    match stripRoot dp fullPath with
    | .ok rel =>
      ({ w with pendingDocs := w.pendingDocs ++ [⟨rel, pagePath, pageNumber, pageBody⟩] },
        .ok ())
    | .error e => (w, .error e)
  | .Reading _ _ => (w, .error (.stateErr "Writing"))

/-- The page loop of `Index::add_pdf_document`. The Rust `while` first
increments `page_number`, invokes the extractor restricted to that page
(exit status 0 exactly when the page exists, per the `DirEntry.pages`
oracle), and on success reads the written page text back, adds the page
document and persists the page-word index. On the first failing
invocation the loop exits and returns the current `page_number`, which is
the number of the failed page. -/
def pdfLoop (idx : Index) (f : DirEntry) (pagesPath : String) (pageNumber : Nat)
    (w : World) : World × Except LittError Nat :=
  let page := pageNumber + 1
  let base := pagesPath ++ "/" ++ toString page
  let pagePath := base ++ ".pageinfo"
  if _h : page ≤ f.pages.length then
    let body := f.pages.getD (page - 1) []
    let w1 := { w with pageFiles := w.pageFiles ++ [.info pagePath body.flatten] }
    match addPage idx w1 f.path page pagePath body.flatten with
    | (w2, .ok _) => pdfLoop idx f pagesPath page (storePageIndexW w2 base (createPageIndex body))
    | (w2, .error e) => (w2, .error e)
  else
    (w, .ok page)
termination_by f.pages.length + 1 - pageNumber
decreasing_by omega

/-- `Index::add_pdf_document` (the loop starts with `page_number = 0`). -/
def addPdfDocument (idx : Index) (f : DirEntry) (pagesPath : String) (w : World) :
    World × Except LittError Nat :=
  pdfLoop idx f pagesPath 0 w

/-- `Index::add_txt_document`: exactly one page; the source file is copied
verbatim to `1.pageinfo`, read back, added, and its page-word index
persisted. -/
def addTxtDocument (idx : Index) (f : DirEntry) (pagesPath : String) (w : World) :
    World × Except LittError Nat :=
  let base := pagesPath ++ "/" ++ toString 1
  let pagePath := base ++ ".pageinfo"
  let body := f.pages.headD []
  let w1 := { w with pageFiles := w.pageFiles ++ [.info pagePath body.flatten] }
  match addPage idx w1 f.path 1 pagePath body.flatten with
  | (w2, .ok _) => (storePageIndexW w2 base (createPageIndex body), .ok 1)
  | (w2, .error e) => (w2, .error e)

/-- `Index::add_document`: allocate the fresh UUID page directory and
dispatch on the path suffix (`ends_with("pdf")`). The returned page count
is only printed by the Rust code, so it is dropped here. -/
def addDocument (idx : Index) (w : World) (f : DirEntry) :
    World × Except LittError Unit :=
  match idx with
  | .Writing dp =>
    let docId := w.nextUuid
    let w0 := { w with nextUuid := w.nextUuid + 1 }
    let pagesPath := dp ++ "/.litt/pages/" ++ toString docId
    let r :=
      if "pdf".data.isSuffixOf f.path.data then addPdfDocument idx f pagesPath w0
      else addTxtDocument idx f pagesPath w0
    (r.1, r.2.map (fun _ => ()))
  | .Reading _ _ => (w, .error (.stateErr "Writing"))

/-- `Index::process_file`: skip the file when the supplied checksum still
matches the filesystem, otherwise ingest it and compute the fresh
checksum. -/
def processFile (idx : Index) (w : World) (f : DirEntry)
    (existing : Option FileMeta) : World × Except LittError (String × FileMeta) :=
  match idx with
  | .Writing dp =>
    match stripRoot dp f.path with
    | .error e => (w, .error e)
    | .ok _ =>
      if !((checksumIsEqual w f.path existing).toOption.getD false) then
        match addDocument idx w f with
        | (w1, .ok _) => (w1, calculateChecksum w1 f.path)
        | (w1, .error e) => (w1, .error e)
      else
        -- the Rust unwrap of `existing_checksum` cannot panic here, since
        -- this arm is only reached when a checksum was supplied
        (w, .ok (f.path, existing.getD ⟨0, 0⟩))
  | .Reading _ _ => (w, .error (.stateErr "Writing"))

/-- `Index::collect_document_files`: the recursive walk of the documents
root filtered by the case-sensitive file name suffixes `pdf`, `md`,
`txt`. `World.files` is the walk result of the single modelled root. -/
def collectDocumentFiles (w : World) : List DirEntry :=
  w.files.filter (fun f =>
    "pdf".data.isSuffixOf f.name.data || "md".data.isSuffixOf f.name.data ||
      "txt".data.isSuffixOf f.name.data)

/-- Display rendering of an error, used in failure records. -/
def errString (e : LittError) : String :=
  match e with
  | .stateErr s => "Index is not in assumed state: " ++ s
  | .pdfParseErr s => "Error parsing PDF: " ++ s
  | .searchErr s => "Error during search: " ++ s
  | .ioErr => "io error"
  | .stripRootErr => "strip error"

/-- The failure record pushed for one file that could not be processed. -/
def mkFailString (f : DirEntry) (e : LittError) : String :=
  "path: " ++ f.path ++ ", error: " ++ errString e

/-- `Index::open_checksum_map`: requires `Writing`; a missing file is an
io error (turned into `None` by `.ok()` at the call site). -/
def openChecksumMap (idx : Index) (w : World) : Except LittError ChecksumMap :=
  match idx with
  | .Writing _ =>
    match w.checksumFile with
    | some m => .ok m
    | none => .error .ioErr
  | .Reading _ _ => .error (.stateErr "Writing")

/-- `Index::store_checksum_map`: requires `Writing`; overwrites
`checksum.json`. -/
def storeChecksumMap (idx : Index) (w : World) (m : ChecksumMap) :
    World × Except LittError Unit :=
  match idx with
  | .Writing _ => ({ w with checksumFile := some m }, .ok ())
  | .Reading _ _ => (w, .error (.stateErr "Writing"))

/-- The `par_iter().filter_map().collect()` of `add_all_documents`,
sequentialised in walk order: successes are collected into the new
checksum map, failures into the shared failure list. -/
def ingestLoop (idx : Index) (cmap : Option ChecksumMap) :
    List DirEntry → World → ChecksumMap → List String → World × ChecksumMap × List String
  | [], w, succ, failed => (w, succ, failed)
  | f :: rest, w, succ, failed =>
    match processFile idx w f (cmap.bind (fun m => lookupMap m f.path)) with
    | (w1, .ok s) => ingestLoop idx cmap rest w1 (succ ++ [s]) failed
    | (w1, .error e) => ingestLoop idx cmap rest w1 succ (failed ++ [mkFailString f e])

/-- `Index::add_all_documents`: load the checksum map (absence tolerated),
process every collected entry, store the new checksum map, then commit
the writer and transition to `Reading`. Note that the Rust code stores
the checksum map and only afterwards matches on the variant, so on a
`Reading` receiver the store is what fails. -/
def addAllDocuments (idx : Index) (w : World) : World × Except LittError Index :=
  match ingestLoop idx (openChecksumMap idx w).toOption (collectDocumentFiles w) w [] [] with
  | (w1, newMap, failed) =>
    match storeChecksumMap idx w1 newMap with
    | (w2, .error e) => (w2, .error e)
    | (w2, .ok _) =>
      match idx with
      | .Writing dp =>
        ({ w2 with committedDocs := w2.committedDocs ++ w2.pendingDocs, pendingDocs := [] },
          .ok (.Reading dp failed))
      | .Reading _ _ => (w2, .error (.stateErr "Writing"))

/-- `Index::update`: re-enter `Writing` with a fresh (empty) writer and
run a full ingest pass. -/
def update (idx : Index) (w : World) : World × Except LittError Index :=
  match idx with
  | .Reading dp _ => addAllDocuments (.Writing dp) { w with pendingDocs := [] }
  | .Writing _ => (w, .error (.stateErr "Reading"))

/-- `Index::reload`: build a fresh writer, queue `delete_all_documents` on
it (the writer is a local that is dropped without commit, so the queued
deletion never reaches the committed segment contents), delete the
checksum map file ignoring not-found, then call `add_all_documents` on
`self` — which is still the `Reading` variant. -/
def reload (idx : Index) (w : World) : World × Except LittError Index :=
  match idx with
  | .Reading dp fd => addAllDocuments (.Reading dp fd) { w with checksumFile := none }
  | .Writing _ => (w, .error (.stateErr "Reading"))

/-- `Index::searcher`: requires `Reading`; the tantivy searcher handle is
opaque and modelled as `Unit`. -/
def searcher (idx : Index) : Except LittError Unit :=
  match idx with
  | .Reading _ _ => .ok ()
  | .Writing _ => .error (.stateErr "Reading")

/-- `Index::query_parser`: requires `Reading`; the tantivy parser handle
is opaque and modelled as `Unit`. -/
def queryParser (idx : Index) : Except LittError Unit :=
  match idx with
  | .Reading _ _ => .ok ()
  | .Writing _ => .error (.stateErr "Reading")

/-- `Index::failed_documents`: requires `Reading`. -/
def failedDocuments (idx : Index) : Except LittError (List String) :=
  match idx with
  | .Reading _ fd => .ok fd
  | .Writing _ => .error (.stateErr "Reading")

theorem processFile_reading (dp : String) (fd : List String) (w : World)
    (f : DirEntry) (ex : Option FileMeta) :
    processFile (.Reading dp fd) w f ex = (w, .error (.stateErr "Writing")) := rfl

theorem ingestLoop_reading (dp : String) (fd : List String)
    (cm : Option ChecksumMap) :
    ∀ (entries : List DirEntry) (w : World) (succ : ChecksumMap) (failed : List String),
      ∃ fl, ingestLoop (.Reading dp fd) cm entries w succ failed = (w, succ, fl) := by
  intro entries
  induction entries with
  | nil => intro w succ failed; exact ⟨failed, rfl⟩
  | cons f rest ih =>
    intro w succ failed
    simpa only [ingestLoop, processFile_reading] using ih w succ _

theorem addAllDocuments_reading (dp : String) (fd : List String) (w : World) :
    addAllDocuments (.Reading dp fd) w = (w, .error (.stateErr "Writing")) := by
  obtain ⟨fl, hl⟩ := ingestLoop_reading dp fd
    ((openChecksumMap (.Reading dp fd) w).toOption) (collectDocumentFiles w) w [] []
  rw [addAllDocuments, hl]
  rfl

/-- Claim C1 (code bug): for every index in the `Reading` state, `reload()`
is claimed to rebuild the index and return `Ok` of a `Reading` index; the
code instead deletes the checksum map file and then calls
`add_all_documents` while `self` is still the `Reading` variant, so the
call always fails with `StateError("Writing")` (raised inside
`store_checksum_map`) and never re-ingests anything. -/
theorem claim_C1_reload_state_error (dp : String) (fd : List String) (w : World) :
    reload (.Reading dp fd) w =
      ({ w with checksumFile := none }, .error (.stateErr "Writing")) :=
  addAllDocuments_reading dp fd { w with checksumFile := none }

/-- Claim C2: every public operation invoked on an index whose variant is
the wrong lifecycle state returns a `State` error naming the expected
state and leaves the world (checksum map file, page files, index
segments, writer queue) completely unchanged. The wrong state is
`Writing` for `update`, `reload`, `searcher`, `query_parser` and
`failed_documents`, and `Reading` for `add_all_documents` and
`process_file`. -/
theorem claim_C2_state_purity (dp : String) (fd : List String) (w : World) :
    update (.Writing dp) w = (w, .error (.stateErr "Reading")) ∧
    reload (.Writing dp) w = (w, .error (.stateErr "Reading")) ∧
    addAllDocuments (.Reading dp fd) w = (w, .error (.stateErr "Writing")) ∧
    searcher (.Writing dp) = .error (.stateErr "Reading") ∧
    queryParser (.Writing dp) = .error (.stateErr "Reading") ∧
    failedDocuments (.Writing dp) = .error (.stateErr "Reading") ∧
    ∀ (f : DirEntry) (ex : Option FileMeta),
      processFile (.Reading dp fd) w f ex = (w, .error (.stateErr "Writing")) :=
  ⟨rfl, rfl, addAllDocuments_reading dp fd w, rfl, rfl, rfl,
    fun f ex => processFile_reading dp fd w f ex⟩

/-- The relative path produced by stripping the documents root. -/
def relPathOf (dp path : String) : String := String.mk (path.data.drop dp.data.length)

/-- The page path (without extension) for page `k` of one ingested
document. -/
def pdfPageBase (pagesPath : String) (k : Nat) : String :=
  pagesPath ++ "/" ++ toString k

/-- The tantivy page document produced for page `k` of a PDF source. -/
def pdfDocFor (dp : String) (f : DirEntry) (pagesPath : String) (k : Nat) : PageDoc :=
  { title := relPathOf dp f.path
    path := pdfPageBase pagesPath k ++ ".pageinfo"
    page := k
    body := (f.pages.getD (k - 1) []).flatten }

/-- The two files written for page `k` of a PDF source: the raw page text
and the serialised page-word index. -/
def pdfFilesFor (f : DirEntry) (pagesPath : String) (k : Nat) : List PageFile :=
  [.info (pdfPageBase pagesPath k ++ ".pageinfo") ((f.pages.getD (k - 1) []).flatten),
   .pindexFile (pdfPageBase pagesPath k ++ ".pageindex")
     (createPageIndex (f.pages.getD (k - 1) []))]

theorem pdfLoop_spec (dp : String) (f : DirEntry) (pagesPath : String)
    (hpre : dp.data.isPrefixOf f.path.data = true) :
    ∀ (n p : Nat) (w : World), p + n = f.pages.length →
      pdfLoop (.Writing dp) f pagesPath p w =
        ({ w with
            pageFiles := w.pageFiles ++
              (List.range' (p + 1) n).flatMap (pdfFilesFor f pagesPath),
            pendingDocs := w.pendingDocs ++
              (List.range' (p + 1) n).map (pdfDocFor dp f pagesPath) },
          .ok (f.pages.length + 1)) := by
  intro n
  induction n with
  | zero =>
    intro p w hp
    rw [pdfLoop, dif_neg (by omega)]
    simp only [List.range', List.flatMap_nil, List.map_nil, List.append_nil]
    have : p + 1 = f.pages.length + 1 := by omega
    rw [this]
  | succ n ih =>
    intro p w hp
    rw [pdfLoop, dif_pos (by omega : p + 1 ≤ f.pages.length)]
    simp only [addPage, stripRoot, if_pos hpre]
    rw [ih (p + 1) _ (by omega)]
    simp only [storePageIndexW, List.range'_succ, List.flatMap_cons, List.map_cons,
      pdfFilesFor, pdfDocFor, pdfPageBase, relPathOf, List.append_assoc, List.cons_append,
      List.nil_append, Nat.add_sub_cancel]

/-- Counterexample to claim C3 as stated: for a PDF whose extractor fails
already on page 1 (the page oracle is empty), the ingestor reports a page
count of 1, not 0, while writing no page files and adding no page
documents. -/
theorem claim_C3_counterexample :
    addPdfDocument (.Writing "/r") ⟨"/r/a.pdf", "a.pdf", ⟨1, 1⟩, []⟩ "/p"
        ⟨[], none, [], [], [], 0⟩ =
      (⟨[], none, [], [], [], 0⟩, .ok 1) := by
  rw [addPdfDocument, pdfLoop]
  simp

/-- Claim C3, amended: for every PDF ingest under the `Writing` state,
page numbers are assigned `1, 2, …` contiguously, the page loop
terminates at the first extractor invocation whose exit status is
non-zero, and the count returned by the PDF ingestor is the number of the
first failed page, that is the number of successfully written pages plus
one (a PDF whose extractor fails on page 1 reports 1, not 0). -/
theorem claim_C3_amended (dp : String) (f : DirEntry) (pagesPath : String)
    (w : World) (hpre : dp.data.isPrefixOf f.path.data = true) :
    addPdfDocument (.Writing dp) f pagesPath w =
      ({ w with
          pageFiles := w.pageFiles ++
            (List.range' 1 f.pages.length).flatMap (pdfFilesFor f pagesPath),
          pendingDocs := w.pendingDocs ++
            (List.range' 1 f.pages.length).map (pdfDocFor dp f pagesPath) },
        .ok (f.pages.length + 1)) := by
  simpa [addPdfDocument] using pdfLoop_spec dp f pagesPath hpre f.pages.length 0 w (by omega)

/-- Witness for the amended claim C3 at a one-page PDF: the ingestor adds
the single page with page number 1 and reports a count of 2. -/
theorem claim_C3_witness :
    addPdfDocument (.Writing "/r") ⟨"/r/b.pdf", "b.pdf", ⟨2, 3⟩, [[['h', 'i']]]⟩ "/p"
        ⟨[], none, [], [], [], 0⟩ =
      ({ files := [], checksumFile := none,
         pageFiles := (List.range' 1 1).flatMap
           (pdfFilesFor ⟨"/r/b.pdf", "b.pdf", ⟨2, 3⟩, [[['h', 'i']]]⟩ "/p"),
         committedDocs := [],
         pendingDocs := (List.range' 1 1).map
           (pdfDocFor "/r" ⟨"/r/b.pdf", "b.pdf", ⟨2, 3⟩, [[['h', 'i']]]⟩ "/p"),
         nextUuid := 0 },
        .ok 2) := by
  simpa using claim_C3_amended "/r" ⟨"/r/b.pdf", "b.pdf", ⟨2, 3⟩, [[['h', 'i']]]⟩ "/p"
    ⟨[], none, [], [], [], 0⟩ (by decide)

theorem lookupMap_cons (e : String × FileMeta) (rest : ChecksumMap) (k : String) :
    lookupMap (e :: rest) k = if e.1 = k then some e.2 else lookupMap rest k := by
  by_cases h : e.1 = k
  · simp [lookupMap, List.find?_cons_of_pos, h]
  · simp [lookupMap, List.find?_cons_of_neg, h]

theorem find_entry_of_nodup (l : List DirEntry) (f : DirEntry)
    (hnd : (l.map DirEntry.path).Nodup) (hf : f ∈ l) :
    l.find? (fun g => g.path = f.path) = some f := by
  induction l with
  | nil => simp at hf
  | cons a rest ih =>
    rcases List.mem_cons.mp hf with rfl | hf'
    · rw [List.find?_cons_of_pos _ (by simp)]
    · have hnd' : (∀ x ∈ rest, ¬ x.path = a.path) ∧ (rest.map DirEntry.path).Nodup := by
        simpa using hnd
      have hne : ¬ a.path = f.path := fun h => hnd'.1 f hf' h.symm
      rw [List.find?_cons_of_neg _ (by simpa using hne)]
      exact ih hnd'.2 hf'

theorem findFile_of_nodup (w : World) (f : DirEntry)
    (hnd : (w.files.map DirEntry.path).Nodup) (hf : f ∈ w.files) :
    findFile w f.path = some f :=
  find_entry_of_nodup w.files f hnd hf

theorem fileMeta_eq_iff (a b : FileMeta) :
    a = b ↔ a.len = b.len ∧ a.mtime = b.mtime := by
  obtain ⟨al, am⟩ := a
  obtain ⟨bl, bm⟩ := b
  simp [FileMeta.mk.injEq]

theorem checksumIsEqual_iff (w : World) (f : DirEntry) (c : Option FileMeta)
    (hfind : findFile w f.path = some f) :
    (checksumIsEqual w f.path c = .ok true) ↔ c = some f.meta := by
  cases c with
  | none => simp [checksumIsEqual]
  | some m => simp [checksumIsEqual, hfind, fileMeta_eq_iff]

theorem processFile_skip (dp : String) (w : World) (f : DirEntry)
    (c : Option FileMeta) (hpre : dp.data.isPrefixOf f.path.data = true)
    (hfind : findFile w f.path = some f) (hc : c = some f.meta) :
    processFile (.Writing dp) w f c = (w, .ok (f.path, f.meta)) := by
  subst hc
  have heq : checksumIsEqual w f.path (some f.meta) = .ok true :=
    (checksumIsEqual_iff w f (some f.meta) hfind).mpr rfl
  simp [processFile, stripRoot, hpre, heq, Except.toOption]

theorem ingestLoop_skip (dp : String) (M : ChecksumMap) :
    ∀ (entries : List DirEntry) (w : World) (succ : ChecksumMap) (failed : List String),
      (∀ f ∈ entries, dp.data.isPrefixOf f.path.data = true ∧
        lookupMap M f.path = some f.meta ∧ findFile w f.path = some f) →
      ingestLoop (.Writing dp) (some M) entries w succ failed =
        (w, succ ++ entries.map (fun f => (f.path, f.meta)), failed) := by
  intro entries
  induction entries with
  | nil => intro w succ failed _; simp [ingestLoop]
  | cons f rest ih =>
    intro w succ failed h
    obtain ⟨h1, h2, h3⟩ := h f (List.mem_cons_self f rest)
    have hskip := processFile_skip dp w f ((some M).bind (fun m => lookupMap m f.path))
      h1 h3 (by simpa using h2)
    rw [ingestLoop, hskip]
    dsimp only
    rw [ih w (succ ++ [(f.path, f.meta)]) failed (fun g hg => h g (List.mem_cons_of_mem f hg))]
    simp

theorem lookup_mapped (l : List DirEntry) (f : DirEntry)
    (hnd : (l.map DirEntry.path).Nodup) (hf : f ∈ l) :
    lookupMap (l.map (fun g => (g.path, g.meta))) f.path = some f.meta := by
  induction l with
  | nil => simp at hf
  | cons a rest ih =>
    rcases List.mem_cons.mp hf with rfl | hf'
    · rw [List.map_cons, lookupMap_cons]
      simp
    · have hnd' : (∀ x ∈ rest, ¬ x.path = a.path) ∧ (rest.map DirEntry.path).Nodup := by
        simpa using hnd
      have hne : ¬ a.path = f.path := fun h => hnd'.1 f hf' h.symm
      rw [List.map_cons, lookupMap_cons, if_neg (by simpa using hne)]
      exact ih hnd'.2 hf'

theorem lookup_mapped_none (k : String) :
    ∀ (l : List DirEntry), (∀ f ∈ l, ¬ f.path = k) →
      lookupMap (l.map (fun g => (g.path, g.meta))) k = none := by
  intro l
  induction l with
  | nil => intro _; simp [lookupMap]
  | cons a rest ih =>
    intro h
    rw [List.map_cons, lookupMap_cons, if_neg (by simpa using h a (List.mem_cons_self a rest))]
    exact ih (fun g hg => h g (List.mem_cons_of_mem a hg))

/-- The checksum map that `add_all_documents` stores: one entry per
collected walk entry, keyed by absolute path (here specialised to the
all-skipped pass, where each success tuple is the existing checksum). -/
def rewrittenChecksumMap (w : World) : ChecksumMap :=
  (collectDocumentFiles w).map (fun f => (f.path, f.meta))

/-- Claim C8: if no collected source file has changed (every collected
entry has a checksum map entry equal to its current metadata, and the map
has no entries for vanished files), a second `add_all_documents` from a
fresh `Writing` state adds zero new page documents, writes zero new page
files, reports zero failures, and rewrites the checksum map with the same
contents; moreover an individual file is skipped if and only if an
existing checksum was supplied and both of its components equal the
file's current values exactly. -/
theorem claim_C8_checksum_idempotence (dp : String) (w : World) (M : ChecksumMap)
    (hcf : w.checksumFile = some M)
    (hpend : w.pendingDocs = [])
    (hnd : (w.files.map DirEntry.path).Nodup)
    (hpre : ∀ f ∈ collectDocumentFiles w, dp.data.isPrefixOf f.path.data = true)
    (hmatch : ∀ f ∈ collectDocumentFiles w, lookupMap M f.path = some f.meta)
    (hkeys : ∀ k v, lookupMap M k = some v → ∃ f ∈ collectDocumentFiles w, f.path = k) :
    addAllDocuments (.Writing dp) w =
      ({ w with checksumFile := some (rewrittenChecksumMap w) }, .ok (.Reading dp [])) ∧
    (∀ k, lookupMap (rewrittenChecksumMap w) k = lookupMap M k) ∧
    (∀ (f : DirEntry) (c : Option FileMeta), findFile w f.path = some f →
      ((checksumIsEqual w f.path c = .ok true) ↔ c = some f.meta) ∧
      (dp.data.isPrefixOf f.path.data = true → c = some f.meta →
        processFile (.Writing dp) w f c = (w, .ok (f.path, f.meta)))) := by
  have hndc : ((collectDocumentFiles w).map DirEntry.path).Nodup :=
    hnd.sublist ((List.filter_sublist w.files).map DirEntry.path)
  refine ⟨?_, ?_, ?_⟩
  · have hopen : (openChecksumMap (.Writing dp) w).toOption = some M := by
      simp [openChecksumMap, hcf, Except.toOption]
    have hing := ingestLoop_skip dp M (collectDocumentFiles w) w [] []
      (fun f hf => ⟨hpre f hf, hmatch f hf,
        findFile_of_nodup w f hnd (List.mem_of_mem_filter hf)⟩)
    rw [addAllDocuments, hopen, hing]
    rw [show rewrittenChecksumMap w = (collectDocumentFiles w).map (fun f => (f.path, f.meta))
      from rfl]
    obtain ⟨files, cf, pf, cd, pd, nu⟩ := w
    simp only at hpend
    subst hpend
    simp [storeChecksumMap, collectDocumentFiles]
  · intro k
    rw [show rewrittenChecksumMap w = (collectDocumentFiles w).map (fun f => (f.path, f.meta))
      from rfl]
    by_cases hk : ∃ f ∈ collectDocumentFiles w, f.path = k
    · obtain ⟨f, hf, rfl⟩ := hk
      rw [lookup_mapped (collectDocumentFiles w) f hndc hf, hmatch f hf]
    · push_neg at hk
      rw [lookup_mapped_none k (collectDocumentFiles w) hk]
      cases hM : lookupMap M k with
      | none => rfl
      | some v =>
        obtain ⟨f, hf, hfk⟩ := hkeys k v hM
        exact absurd hfk (hk f hf)
  · intro f c hfind
    exact ⟨checksumIsEqual_iff w f c hfind,
      fun hp hc => processFile_skip dp w f c hp hfind hc⟩

/-- A one-file world used by the claim C8 witness: its checksum map file
already holds the file's current metadata. -/
def c8File : DirEntry := ⟨"/r/a.txt", "a.txt", ⟨5, 7⟩, [[['x']]]⟩

/-- The world of the claim C8 witness. -/
def c8World : World := ⟨[c8File], some [("/r/a.txt", ⟨5, 7⟩)], [], [], [], 3⟩

/-- Witness for claim C8 at a one-file world whose checksum map already
holds the file's current metadata: the second ingest pass succeeds with
no failures and rewrites the map. -/
theorem claim_C8_witness :
    addAllDocuments (.Writing "/r") c8World =
      ({ c8World with checksumFile := some (rewrittenChecksumMap c8World) },
        .ok (.Reading "/r" [])) := by
  refine (claim_C8_checksum_idempotence "/r" c8World [("/r/a.txt", ⟨5, 7⟩)] rfl rfl
    (by decide) (by decide) (by decide) ?_).1
  intro k v h
  rw [show lookupMap [("/r/a.txt", ⟨5, 7⟩)] k =
      (if ("/r/a.txt" : String) = k then some ⟨5, 7⟩ else lookupMap [] k) from
    lookupMap_cons ("/r/a.txt", ⟨5, 7⟩) [] k] at h
  by_cases hc : ("/r/a.txt" : String) = k
  · exact ⟨c8File, by decide, hc⟩
  · rw [if_neg hc] at h
    simp [lookupMap] at h

/-! Search side: `src/search/src/search.rs` and the `levenshtein` crate. -/

/-- One row update of the `levenshtein` crate: the inner loop over the
characters of `a` for one character `code_b` of `b`, threading the cache
row, `distance_a` and `result`; returns the updated cache and the final
`result`. -/
def levRow (cb : Char) : List Char → List Nat → Nat → Nat → List Nat × Nat
  | ca :: as_, c :: cache, da, res =>
    let db := if ca = cb then da else da + 1
    let da2 := c
    let res2 :=
      if da2 > res then (if db > res then res + 1 else db)
      else (if db > da2 then da2 + 1 else db)
    let r := levRow cb as_ cache da2 res2
    (res2 :: r.1, r.2)
  | _, _, _, res => ([], res)

/-- The outer loop of the `levenshtein` crate over the characters of `b`
with their indices. -/
def levLoop (a : List Char) : List Char → Nat → List Nat → Nat → Nat
  | [], _, _, res => res
  | cb :: bs, idxB, cache, _ =>
    let r := levRow cb a cache idxB idxB
    levLoop a bs (idxB + 1) r.1 r.2

/-- `levenshtein::levenshtein`: the edit distance as computed by the crate
(row dynamic programming with cache initialised to `1..=length_a`). -/
def levenshtein (a b : List Char) : Nat :=
  if a = b then 0
  else if a.length = 0 then b.length
  else if b.length = 0 then a.length
  else levLoop a b 0 (List.range' 1 a.length) 0

/-- Rust `str::contains`: `needle` occurs as a contiguous substring. -/
def containsSub (needle : List Char) : List Char → Bool
  | [] => needle.isEmpty
  | c :: rest => needle.isPrefixOf (c :: rest) || containsSub needle rest

/-- The per-entry distance of `get_fuzzy_match`: a vocabulary word that
contains the query token as a substring counts as distance 1, otherwise
the crate Levenshtein distance is used. -/
def fuzzyDist (term word : List Char) : Nat :=
  if containsSub term word then 1 else levenshtein term word

/-- The fold of `get_fuzzy_match` over the page-word index entries in
iteration order: keep the entry with the strictly smallest distance seen
so far together with its first recorded position (`(0, 0)` when the
position list is empty, per `unwrap_or`). -/
def fuzzyScan (term : List Char) :
    PageIndex → (List Char × Nat × Nat) → Nat → (List Char × Nat × Nat) × Nat
  | [], cur, minDist => (cur, minDist)
  | (word, ms) :: rest, cur, minDist =>
    let dist := fuzzyDist term word
    if dist < minDist then
      fuzzyScan term rest (word, (ms.headD (0, 0)).1, (ms.headD (0, 0)).2) dist
    else
      fuzzyScan term rest cur minDist

/-- `Search::get_fuzzy_match`: an exact key hit takes the first recorded
position (panicking, `none`, on an empty position list); otherwise the
minimal-distance entry is selected and accepted when `min_dist as u8`
(that is, the minimum reduced modulo 256, starting from the sentinel
`usize::MAX`) is at most the caller's distance bound. -/
def getFuzzyMatch (term : List Char) (distance : Nat) (pindex : PageIndex) :
    Option (Except LittError (List Char × Nat × Nat)) :=
  match lookupPIndex pindex term with
  | some ms =>
    match ms.head? with
    | some pr => some (.ok (term, pr.1, pr.2))
    | none => none
  | none =>
    let r := fuzzyScan term pindex ("".data, 0, 0) usizeMax
    if r.2 % 256 ≤ distance then some (.ok r.1) else some (.error (.searchErr ""))

/-- The minimal distance of `get_fuzzy_match` over the vocabulary,
starting from the `usize::MAX` sentinel. -/
def minFuzzyDist (term : List Char) (p : PageIndex) : Nat :=
  (p.map (fun e => fuzzyDist term e.1)).foldl min usizeMax

theorem foldl_min_le_init (l : List Nat) (a : Nat) : l.foldl min a ≤ a := by
  induction l generalizing a with
  | nil => exact le_rfl
  | cons b rest ih => exact le_trans (ih (min a b)) (min_le_left a b)

theorem foldl_min_le_mem (l : List Nat) (x : Nat) (hx : x ∈ l) :
    ∀ a, l.foldl min a ≤ x := by
  induction l with
  | nil => simp at hx
  | cons b rest ih =>
    intro a
    rcases List.mem_cons.mp hx with rfl | hx'
    · exact le_trans (foldl_min_le_init rest (min a x)) (min_le_right a x)
    · exact ih hx' (min a b)

theorem foldl_min_mem (l : List Nat) (a : Nat) :
    l.foldl min a = a ∨ l.foldl min a ∈ l := by
  induction l generalizing a with
  | nil => exact Or.inl rfl
  | cons b rest ih =>
    rcases ih (min a b) with h | h
    · rcases Nat.le_total a b with hab | hab
      · left; rw [List.foldl_cons, h, min_eq_left hab]
      · right; rw [List.foldl_cons, h, min_eq_right hab]; exact List.mem_cons_self b rest
    · right; exact List.mem_cons_of_mem b h

theorem fuzzyScan_snd (t : List Char) :
    ∀ (P : PageIndex) (cur : List Char × Nat × Nat) (minDist : Nat),
      (fuzzyScan t P cur minDist).2 =
        (P.map (fun e => fuzzyDist t e.1)).foldl min minDist := by
  intro P
  induction P with
  | nil => intro cur minDist; rfl
  | cons e rest ih =>
    intro cur minDist
    obtain ⟨word, ms⟩ := e
    rw [fuzzyScan]
    by_cases h : fuzzyDist t word < minDist
    · rw [if_pos h, ih, List.map_cons, List.foldl_cons, min_eq_right (le_of_lt h)]
    · rw [if_neg h, ih, List.map_cons, List.foldl_cons, min_eq_left (le_of_not_lt h)]

theorem fuzzyScan_fst_of_none (t : List Char) :
    ∀ (P : PageIndex) (cur : List Char × Nat × Nat) (minDist : Nat),
      (∀ e ∈ P, ¬ fuzzyDist t e.1 < minDist) →
      (fuzzyScan t P cur minDist).1 = cur := by
  intro P
  induction P with
  | nil => intro cur minDist _; rfl
  | cons e rest ih =>
    intro cur minDist h
    obtain ⟨word, ms⟩ := e
    rw [fuzzyScan]
    rw [if_neg (h (word, ms) (List.mem_cons_self _ _))]
    exact ih cur minDist (fun g hg => h g (List.mem_cons_of_mem _ hg))

theorem fuzzyScan_fst_found (t : List Char) :
    ∀ (P : PageIndex) (cur : List Char × Nat × Nat) (minDist m : Nat)
      (e : List Char × List (Nat × Nat)),
      m = (P.map (fun x => fuzzyDist t x.1)).foldl min minDist →
      m < minDist →
      P.find? (fun x => fuzzyDist t x.1 = m) = some e →
      (fuzzyScan t P cur minDist).1 =
        (e.1, (e.2.headD (0, 0)).1, (e.2.headD (0, 0)).2) := by
  intro P
  induction P with
  | nil =>
    intro cur minDist m e hm hlt hfind
    simp at hfind
  | cons x0 rest ih =>
    intro cur minDist m e hm hlt hfind
    obtain ⟨word, ms⟩ := x0
    simp only [List.map_cons, List.foldl_cons] at hm
    by_cases hd0 : fuzzyDist t word = m
    · rw [List.find?_cons_of_pos _ (by simpa using hd0)] at hfind
      obtain rfl := Option.some.inj hfind
      rw [fuzzyScan]
      rw [if_pos (by omega : fuzzyDist t word < minDist)]
      exact fuzzyScan_fst_of_none t rest _ (fuzzyDist t word)
        (fun g hg => by
          have := foldl_min_le_mem (rest.map (fun x => fuzzyDist t x.1))
            (fuzzyDist t g.1) (List.mem_map_of_mem _ hg)
            (min minDist (fuzzyDist t word))
          omega)
    · rw [List.find?_cons_of_neg _ (by simpa using hd0)] at hfind
      have hle : m ≤ fuzzyDist t word := by
        have h1 := foldl_min_le_init (rest.map (fun x => fuzzyDist t x.1))
          (min minDist (fuzzyDist t word))
        have h2 : min minDist (fuzzyDist t word) ≤ fuzzyDist t word := min_le_right _ _
        omega
      have hmlt : m < fuzzyDist t word := lt_of_le_of_ne hle (fun h => hd0 h.symm)
      rw [fuzzyScan]
      by_cases hbr : fuzzyDist t word < minDist
      · rw [if_pos hbr]
        refine ih _ (fuzzyDist t word) m e ?_ hmlt hfind
        rw [hm, min_eq_right (le_of_lt hbr)]
      · rw [if_neg hbr]
        refine ih cur minDist m e ?_ hlt hfind
        rw [hm, min_eq_left (le_of_not_lt hbr)]

set_option maxRecDepth 10000 in
/-- Counterexample to claim C4 as stated: for a 256-character token whose
only vocabulary entry is at Levenshtein distance 256, the `as u8` cast
reduces `min_dist` to 0, so the match is accepted at distance bound 0
even though 256 is not at most 0. -/
theorem claim_C4_counterexample :
    getFuzzyMatch (List.replicate 256 'a') 0 [(['b'], [(5, 7)])] =
      some (.ok (['b'], 5, 7)) ∧
    levenshtein (List.replicate 256 'a') ['b'] = 256 := by decide

/-- Claim C4, amended: for a fuzzy token `t` that is not a key of the
page-word index, the lookup selects the first entry (in map iteration
order) whose distance attains the minimum, where a word containing `t` as
a substring counts as distance 1 and otherwise the crate Levenshtein
distance applies; the match is accepted if and only if the minimum
distance *reduced modulo 256* (the `as u8` cast) is at most the caller's
bound. The hypotheses keep every true distance below the `usize::MAX`
sentinel, as in any run of the Rust code. -/
theorem claim_C4_amended (t : List Char) (d : Nat) (P : PageIndex)
    (_hd : d < 256) (hnot : lookupPIndex P t = none) (hne : P ≠ [])
    (hsmall : ∀ e ∈ P, fuzzyDist t e.1 < usizeMax) :
    (minFuzzyDist t P % 256 ≤ d →
      ∃ e, P.find? (fun x => fuzzyDist t x.1 = minFuzzyDist t P) = some e ∧
        getFuzzyMatch t d P =
          some (.ok (e.1, (e.2.headD (0, 0)).1, (e.2.headD (0, 0)).2))) ∧
    (¬ minFuzzyDist t P % 256 ≤ d →
      getFuzzyMatch t d P = some (.error (.searchErr ""))) := by
  have hsnd : (fuzzyScan t P ("".data, 0, 0) usizeMax).2 = minFuzzyDist t P :=
    fuzzyScan_snd t P _ usizeMax
  constructor
  · intro hacc
    have hmlt : minFuzzyDist t P < usizeMax := by
      obtain ⟨e0, P', heq⟩ := List.exists_cons_of_ne_nil hne
      have hmem : fuzzyDist t e0.1 ∈ (P.map (fun x => fuzzyDist t x.1)) := by
        rw [heq]; simp
      have h1 := foldl_min_le_mem _ _ hmem usizeMax
      have h2 := hsmall e0 (by rw [heq]; exact List.mem_cons_self e0 P')
      exact lt_of_le_of_lt h1 h2
    have hattain : ∃ e ∈ P, fuzzyDist t e.1 = minFuzzyDist t P := by
      rcases foldl_min_mem (P.map (fun x => fuzzyDist t x.1)) usizeMax with h | h
      · exact absurd (h ▸ hmlt) (lt_irrefl usizeMax)
      · obtain ⟨e, he, hde⟩ := List.mem_map.mp h
        exact ⟨e, he, hde⟩
    have hfind : (P.find? (fun x => fuzzyDist t x.1 = minFuzzyDist t P)).isSome := by
      rw [List.find?_isSome]
      obtain ⟨e, he, hde⟩ := hattain
      exact ⟨e, he, by simpa using hde⟩
    obtain ⟨e, he⟩ := Option.isSome_iff_exists.mp hfind
    refine ⟨e, he, ?_⟩
    rw [getFuzzyMatch, hnot]
    dsimp only
    rw [fuzzyScan_fst_found t P ("".data, 0, 0) usizeMax (minFuzzyDist t P) e rfl hmlt he]
    rw [hsnd, if_pos hacc]
  · intro hrej
    rw [getFuzzyMatch, hnot]
    dsimp only
    rw [hsnd, if_neg hrej]

/-- Witness for the amended claim C4: the token `ab` is not a key; the
entry `abc` contains it as a substring (distance 1, the minimum), so the
lookup accepts it at bound 1 and returns its first position. -/
theorem claim_C4_witness :
    ∃ e, ([(['x'], [(1, 2)]), (['a', 'b', 'c'], [(4, 6)])] : PageIndex).find?
        (fun x => fuzzyDist ['a', 'b'] x.1 =
          minFuzzyDist ['a', 'b'] [(['x'], [(1, 2)]), (['a', 'b', 'c'], [(4, 6)])]) = some e ∧
      getFuzzyMatch ['a', 'b'] 1 [(['x'], [(1, 2)]), (['a', 'b', 'c'], [(4, 6)])] =
        some (.ok (e.1, (e.2.headD (0, 0)).1, (e.2.headD (0, 0)).2)) :=
  (claim_C4_amended ['a', 'b'] 1 [(['x'], [(1, 2)]), (['a', 'b', 'c'], [(4, 6)])]
    (by decide) (by decide) (by decide) (by decide)).1 (by decide)

/-- UTF-8 byte length of one character, as in Rust `char::len_utf8`. -/
def utf8Len (c : Char) : Nat :=
  if c.toNat < 128 then 1
  else if c.toNat < 2048 then 2
  else if c.toNat < 65536 then 3
  else 4

/-- Rust `str::len`: the UTF-8 byte length of a string. -/
def byteSize (s : List Char) : Nat := (s.map utf8Len).sum

/-- `s.char_indices().nth(n).map(|p| p.0)`: the byte offset of the `n`-th
character, when it exists. -/
def charIdxByte (s : List Char) (n : Nat) : Option Nat :=
  if n < s.length then some (byteSize (s.take n)) else none

/-- The character index of a byte offset when the offset lies on a
character boundary. -/
def boundaryIdx (s : List Char) (b : Nat) : Option Nat :=
  (List.range (s.length + 1)).find? (fun k => byteSize (s.take k) = b)

/-- Rust `&s[a..b]`: the substring between two byte offsets; `none` models
the byte-slice panic (offset out of range, not on a character boundary,
or start beyond end). -/
def sliceBytes (s : List Char) (a b : Nat) : Option (List Char) :=
  match boundaryIdx s a, boundaryIdx s b with
  | some i, some j => if i ≤ j then some ((s.take j).drop i) else none
  | _, _ => none

/-- Rust `str::replace(pat, rep)`: replace every non-overlapping
occurrence of `pat`, scanning left to right; an empty pattern matches at
every character boundary. -/
def replaceAll (pat rep : List Char) (s : List Char) : List Char :=
  if _hp : pat = [] then rep ++ (s.map (fun c => c :: rep)).flatten
  else
    match s with
    | [] => []
    | c :: rest =>
      if pat.isPrefixOf (c :: rest) then
        rep ++ replaceAll pat rep (List.drop pat.length (c :: rest))
      else c :: replaceAll pat rep rest
termination_by s.length
decreasing_by
  · have : 0 < pat.length := List.length_pos.mpr _hp
    simp only [List.length_drop, List.length_cons]
    omega
  · simp only [List.length_cons]
    omega

/-- Rust `str::replace('\n', " ")` applied last to the preview. -/
def replaceNewlines (s : List Char) : List Char :=
  s.map (fun c => if c = '\n' then ' ' else c)

/-- `Search::get_fuzzy_preview`. The page-word index read from disk is
passed in (`Index::page_index` is a deserialisation of the file written
at ingest); `body` is the page text read from the stored page file. The
window ends are computed from the recorded grapheme positions by
`char_indices().nth(start - 20)` and `nth(end + 20)`, the latter falling
back to `body.len() - 1` — a byte offset — when past the end; the
byte-slice of the body then panics (`none`) when either offset is not a
character boundary, and on an empty body the `len() - 1` subtraction
itself panics. -/
def getFuzzyPreview (term : List Char) (distance : Nat) (pindex : PageIndex)
    (body : List Char) : Option (Except LittError (List Char × List Char)) :=
  match getFuzzyMatch term distance pindex with
  | none => none
  | some (.error _) => some (.error (.searchErr ""))
  | some (.ok (w, s, e)) =>
    let startB :=
      match charIdxByte body (s - 20) with
      | some b => b
      | none => 0
    let endB? : Option Nat :=
      match charIdxByte body (e + 20) with
      | some b => some b
      | none => if byteSize body = 0 then none else some (byteSize body - 1)
    match endB? with
    | none => none
    | some endB =>
      match sliceBytes body startB endB with
      | none => none
      | some mid =>
        let sub := "...".data ++ mid ++ "...".data
        let sub2 := replaceAll w ("**".data ++ w ++ "**".data) sub
        some (.ok (replaceNewlines sub2, w))

/-- Claim C5 (code bug) at the failing input: page body `ab …`
(HORIZONTAL ELLIPSIS, a three-byte character), accepted fuzzy term `ab`
with recorded grapheme positions `(0, 2)` — exactly the page-word index
that ingest builds for this body. The claim promises a preview window
measured in grapheme clusters; the code instead falls back to the byte
offset `body.len() - 1 = 5`, which lies inside the final character, and
the byte-slice `&body[0..5]` panics (`none`). -/
theorem claim_C5_preview_panics :
    createPageIndex [['a'], ['b'], [' '], ['…']] =
      [(['a', 'b'], [(0, 2)]), ([], [(3, 3)])] ∧
    getFuzzyPreview ['a', 'b'] 2 [(['a', 'b'], [(0, 2)]), ([], [(3, 3)])]
      ['a', 'b', ' ', '…'] = none := by
  constructor
  · have h1 : innerLoop [['a'], ['b'], [' '], ['…']] 0 [] = some (['a', 'b'], 2) := by
      simp [innerLoop, allAlnum, charIsAlnum]
    have h2 : innerLoop [['a'], ['b'], [' '], ['…']] 3 [] = some ([], 3) := by
      simp [innerLoop, allAlnum, charIsAlnum]
    rw [createPageIndex, outerLoop_eq_some [] (by norm_num) h1,
      outerLoop_eq_some _ (by norm_num) h2, outerLoop_eq_end _ (by norm_num)]
    decide
  · decide

/-- Rust `str::split(' ')`: split on the single space character; always
yields at least one (possibly empty) part. -/
def splitCh (sep : Char) : List Char → List (List Char)
  | [] => [[]]
  | c :: rest =>
    if c = sep then [] :: splitCh sep rest
    else
      match splitCh sep rest with
      | [] => [[c]]
      | p :: ps => (c :: p) :: ps

/-- `get_first_term`: the first part of `query.split(' ')`, with one
leading `"` stripped (`strip_prefix('\"')`). -/
def getFirstTerm (q : List Char) : List Char :=
  match (splitCh ' ' q).head? with
  | some first => if first.head? = some '"' then first.tail else first
  | none => []

/-- `Search::get_preview_from_query` for an exact query: the snippet
generation and highlighting over the `body` field are the indexing
library's black box, so the rendered preview is passed in; the matched
term returned alongside it is `get_first_term` of the original query. -/
def getPreviewFromQuery (snippetText : List Char) (term : List Char) :
    List Char × List Char :=
  (snippetText, getFirstTerm term)

/-- The claim's own words, for comparison: the first
*whitespace*-separated token of the query. -/
def firstWhitespaceToken (q : List Char) : List Char :=
  (q.dropWhile (fun c => c.isWhitespace)).takeWhile (fun c => !c.isWhitespace)

/-- Counterexample to claim C9 as stated: for the query `a<TAB>b` the
first whitespace-separated token is `a`, but the code splits on the space
character only and returns the whole string `a<TAB>b`. -/
theorem claim_C9_counterexample :
    (getPreviewFromQuery [] ['a', '\t', 'b']).2 = ['a', '\t', 'b'] ∧
    firstWhitespaceToken ['a', '\t', 'b'] = ['a'] ∧
    (['a', '\t', 'b'] : List Char) ≠ ['a'] := by decide

theorem splitCh_ne_nil (sep : Char) : ∀ l, splitCh sep l ≠ [] := by
  intro l
  cases l with
  | nil => simp [splitCh]
  | cons c rest =>
    rw [splitCh]
    by_cases h : c = sep
    · simp [h]
    · rw [if_neg h]
      cases splitCh sep rest <;> simp

theorem splitCh_head (sep : Char) :
    ∀ l, (splitCh sep l).head? = some (l.takeWhile (fun c => c != sep)) := by
  intro l
  induction l with
  | nil => rfl
  | cons c rest ih =>
    rw [splitCh]
    by_cases h : c = sep
    · simp [h, List.takeWhile_cons]
    · rw [if_neg h]
      rcases hs : splitCh sep rest with _ | ⟨p, ps⟩
      · exact absurd hs (splitCh_ne_nil sep rest)
      · rw [hs] at ih
        simp only [List.head?_cons, Option.some.injEq] at ih
        simp [List.takeWhile_cons, h, ih]

/-- Claim C9, amended: the matched term returned by `get_preview`
alongside the preview of an exact query equals the first
*space*-separated (U+0020 only, not general whitespace) token of the
query, with one leading `"` character stripped. -/
theorem claim_C9_amended (s q : List Char) :
    (getPreviewFromQuery s q).2 =
      (if (q.takeWhile (fun c => c != ' ')).head? = some '"' then
        (q.takeWhile (fun c => c != ' ')).tail
      else q.takeWhile (fun c => c != ' ')) := by
  show getFirstTerm q = _
  rw [getFirstTerm, splitCh_head ' ' q]

/-- The library hit of one retrieved page document, with its stored
fields resolved: the `(score, doc_address)` pair returned by the tantivy
top-docs search together with the `title` and `page` fields of the
document at that address. -/
structure Hit where
  score : ℚ
  segmentOrd : Nat
  docId : Nat
  title : String
  page : Nat
deriving Repr, DecidableEq

/-- `litt_search::search::SearchResult`. Scores are the library's `f32`
relevance values; no arithmetic is performed on them in the modelled
code, so they are carried as exact rationals. -/
structure SearchResult where
  page : Nat
  score : ℚ
  segmentOrd : Nat
  docId : Nat
deriving Repr, DecidableEq

/-- The grouped search results: `HashMap<String, LinkedList<SearchResult>>`
contents as an association list in insertion order. -/
abbrev ResultsMap := List (String × List SearchResult)

/-- Lookup in the grouped results (`HashMap::get`). -/
def lookupResults (m : ResultsMap) (t : String) : Option (List SearchResult) :=
  (m.find? (fun e => e.1 = t)).map (·.2)

/-- `results.entry(title).and_modify(|pages| pages.push_back(r))
.or_insert_with(|| LinkedList::from([r]))`. -/
def insertResult (m : ResultsMap) (t : String) (r : SearchResult) : ResultsMap :=
  match m with
  | [] => [(t, [r])]
  | e :: rest =>
    if e.1 = t then (e.1, e.2 ++ [r]) :: rest
    else e :: insertResult rest t r

/-- The result-assembly loop of `Search::search` over the library's
top-docs list (already score-ordered, offset and limit applied by the
library): group each hit under its `title`, failing when a stored page
number does not fit `u32`. -/
def searchLoop : List Hit → ResultsMap → Except LittError ResultsMap
  | [], m => .ok m
  | h :: rest, m =>
    if h.page < u32Mod then
      searchLoop rest (insertResult m h.title ⟨h.page, h.score, h.segmentOrd, h.docId⟩)
    else .error (.searchErr "Fatal: page is bigger than u32")

/-- `Search::search`: the query parsing and the library retrieval are the
black box producing `topDocs`; the function groups the hits by title. -/
def search (topDocs : List Hit) : Except LittError ResultsMap :=
  searchLoop topDocs []

/-- Every grouped entry has a non-empty hit list. -/
def InvMap (m : ResultsMap) : Prop := ∀ p ∈ m, p.2 ≠ []

theorem insertResult_invMap {m : ResultsMap} (t : String) (r : SearchResult)
    (h : InvMap m) : InvMap (insertResult m t r) := by
  induction m with
  | nil =>
    intro p hp
    simp only [insertResult, List.mem_singleton] at hp
    subst hp
    simp
  | cons e rest ih =>
    intro p hp
    rw [insertResult] at hp
    by_cases he : e.1 = t
    · rw [if_pos he] at hp
      rcases List.mem_cons.mp hp with rfl | hp'
      · simp
      · exact h p (List.mem_cons_of_mem e hp')
    · rw [if_neg he] at hp
      rcases List.mem_cons.mp hp with rfl | hp'
      · exact h p (List.mem_cons_self p rest)
      · exact ih (fun q hq => h q (List.mem_cons_of_mem e hq)) p hp'

theorem searchLoop_invMap :
    ∀ (hits : List Hit) (acc m : ResultsMap), InvMap acc →
      searchLoop hits acc = .ok m → InvMap m := by
  intro hits
  induction hits with
  | nil =>
    intro acc m hi h
    rw [searchLoop] at h
    obtain rfl := Except.ok.inj h
    exact hi
  | cons hit rest ih =>
    intro acc m hi h
    rw [searchLoop] at h
    by_cases hp : hit.page < u32Mod
    · rw [if_pos hp] at h
      exact ih _ m (insertResult_invMap hit.title _ hi) h
    · rw [if_neg hp] at h
      exact absurd h (by simp)

/-- Claim C10: for every top-docs list, every title key present in the
mapping returned by `search` maps to a non-empty list of `SearchResult`:
a title is only inserted together with its first hit and subsequent hits
are appended, so no title ever maps to an empty list. -/
theorem claim_C10_nonempty_groups (hits : List Hit) (m : ResultsMap)
    (h : search hits = .ok m) :
    ∀ (t : String) (l : List SearchResult), lookupResults m t = some l → l ≠ [] := by
  intro t l hl
  have hinv : InvMap m := searchLoop_invMap hits [] m (by intro p hp; simp at hp) h
  obtain ⟨e, hfind⟩ : ∃ e, m.find? (fun x => x.1 = t) = some e ∧ e.2 = l := by
    rcases hf : m.find? (fun x => x.1 = t) with _ | e
    · rw [lookupResults, hf] at hl; simp at hl
    · rw [lookupResults, hf] at hl
      refine ⟨e, hf, ?_⟩
      simpa using hl
  obtain ⟨hfind, rfl⟩ := hfind
  exact hinv e (List.mem_of_find?_eq_some hfind)

/-- Witness for claim C10 at a single concrete hit: the returned mapping
groups it under its title with a non-empty singleton list. -/
theorem claim_C10_witness : (([⟨2, 3, 0, 5⟩] : List SearchResult)) ≠ [] :=
  claim_C10_nonempty_groups [⟨3, 0, 5, "t.pdf", 2⟩] [("t.pdf", [⟨2, 3, 0, 5⟩])]
    (by decide) "t.pdf" [⟨2, 3, 0, 5⟩] (by decide)

end Litt
